import Mathlib

/-
Verification of the tensor pipeline of `models_mae_channels.py`
(class `MaskedAutoencoderChannelViT`).

Modelling conventions.
* Pixel values and mask entries are rationals (the source uses floats; no
  floating-point rounding behaviour is claimed by the properties below).
* A tensor is embedded either as a function of its indices (for the
  reshape/einsum index arithmetic of `patchify` and `unpatchify`) or as a
  `List` (for the gather/argsort/concatenate operations of the masking and
  decoding pipeline).  Shape parameters (batch `N`, channels `c`, patch grid
  side `h`, patch size `p`, embed dim `D`) are explicit arguments; the batch
  dimension is kept for the index-arithmetic functions and dropped for the
  per-sample list pipeline (every batched op in the source acts on samples
  independently, except the final loss sum which is modelled with its batch
  sum explicit).
* The random noise drawn by `torch.rand` inside `random_masking` is an
  explicit oracle argument `noise`.
* External collaborators (timm `PatchEmbed`, transformer `Block`s, the
  learned linear layers and the frozen sinusoidal buffers) are opaque
  function parameters; theorems that need them assume only their shape
  contracts, as the spec directs (spec section 6).
* The float division `loss.sum() / mask.sum()` produces NaN when the
  denominator is zero; this fallible step is embedded as an `Option`, with
  `none` standing for the NaN outcome.
-/

/-! ## Tokenizer: `patchify` / `unpatchify` (source lines 113-146)

Images are embedded as functions `imgs n ch i j : ℚ` (sample, channel, row,
column); token grids as functions `x n t k : ℚ` (sample, token index, index
inside the flattened patch).  Each `let` mirrors one reshape/einsum line of
the source; a reshape of a tensor-as-function is index decomposition. -/

/-- Embedding of `MaskedAutoencoderChannelViT.patchify(imgs, p, c)`.
`h` is the patch-grid side `imgs.shape[2] // p` (the source asserts the image
is square, so the grid width `w` equals `h`). -/
def patchify (p c h : ℕ) (imgs : ℕ → ℕ → ℕ → ℕ → ℚ) : ℕ → ℕ → ℕ → ℚ :=
  -- x = imgs.reshape(N, c, h, p, w, p)
  let x1 : ℕ → ℕ → ℕ → ℕ → ℕ → ℕ → ℚ :=
    fun n ch i pp j qq => imgs n ch (i * p + pp) (j * p + qq)
  -- x = torch.einsum('nchpwq->nchwpq', x)
  let x2 : ℕ → ℕ → ℕ → ℕ → ℕ → ℕ → ℚ :=
    fun n ch i j pp qq => x1 n ch i pp j qq
  -- x = x.reshape(N, c, h*w, p**2)
  let x3 : ℕ → ℕ → ℕ → ℕ → ℚ :=
    fun n ch s k => x2 n ch (s / h) (s % h) (k / p) (k % p)
  -- x = x.view(N, c*h*w, p**2)
  fun n t k => x3 n (t / (h * h)) (t % (h * h)) k

/-- Embedding of `MaskedAutoencoderChannelViT.unpatchify(x, p, c)`.
`h` is the grid side recovered in the source as `int((x.shape[1]/c)**.5)`
(the source asserts `h * w * c == x.shape[1]`). -/
def unpatchify (p c h : ℕ) (x : ℕ → ℕ → ℕ → ℚ) : ℕ → ℕ → ℕ → ℕ → ℚ :=
  -- x = x.reshape(N, c, h, w, p, p)
  let x1 : ℕ → ℕ → ℕ → ℕ → ℕ → ℕ → ℚ :=
    fun n ch i j pp qq => x n (ch * (h * h) + (i * h + j)) (pp * p + qq)
  -- x = torch.einsum('nchwpq->nchpwq', x)
  let x2 : ℕ → ℕ → ℕ → ℕ → ℕ → ℕ → ℚ :=
    fun n ch i pp j qq => x1 n ch i j pp qq
  -- imgs = x.reshape(N, c, h*p, h*p)
  fun n ch a b => x2 n ch (a / p) (a % p) (b / p) (b % p)

/-- Concrete image used by witnesses: pixel value determined by its indices. -/
def wImg : ℕ → ℕ → ℕ → ℕ → ℚ := fun n ch i j => (n : ℚ) + 2 * ch + 3 * i + 5 * j

/-! ## Masking engine: `random_masking` (source lines 148-173)

Token sequences are per-sample lists; the noise drawn by `torch.rand` is an
oracle argument.  `torch.argsort` is embedded as an insertion sort of the
index list by noise value (ties broken by index; `torch.argsort` leaves tie
order unspecified, and the uniform noise is tie-free almost surely). -/

/-- Python `int()` on a rational: truncation toward zero.  The source
computes `len_keep = int(L * (1 - mask_ratio))`. -/
def pyInt (q : ℚ) : ℤ := if 0 ≤ q then ⌊q⌋ else -⌊-q⌋

/-- Length of the Python slice `xs[:n]` of a length-`L` list, for a possibly
negative `n` (a negative `n` counts from the end, as in Python slicing). -/
def sliceLen (L : ℕ) (n : ℤ) : ℕ := if 0 ≤ n then min n.toNat L else L - (-n).toNat

/-- Embedding of `torch.gather(x, dim=1, index=idx)` on one sample: entry `k`
of the result is entry `idx[k]` of `x` (torch requires indices in range; the
default `d` covers the out-of-range case of `List.getD`). -/
def gather {α : Type} (x : List α) (idx : List ℕ) (d : α) : List α :=
  idx.map (fun i => x.getD i d)

/-- Comparison used by the embedded `torch.argsort`: ascending by value,
ties broken by index. -/
def argsortRel {β : Type} [LinearOrder β] (v : List β) (d : β) (i j : ℕ) : Prop :=
  v.getD i d < v.getD j d ∨ (v.getD i d = v.getD j d ∧ i ≤ j)

instance argsortRelDecidable {β : Type} [LinearOrder β] (v : List β) (d : β) :
    DecidableRel (argsortRel v d) := fun i j =>
  inferInstanceAs (Decidable (v.getD i d < v.getD j d ∨ (v.getD i d = v.getD j d ∧ i ≤ j)))

instance argsortRelTotal {β : Type} [LinearOrder β] (v : List β) (d : β) :
    IsTotal ℕ (argsortRel v d) := by
  constructor
  intro i j
  rcases lt_trichotomy (v.getD i d) (v.getD j d) with hlt | heq | hgt
  · exact Or.inl (Or.inl hlt)
  · rcases Nat.le_total i j with hij | hij
    · exact Or.inl (Or.inr ⟨heq, hij⟩)
    · exact Or.inr (Or.inr ⟨heq.symm, hij⟩)
  · exact Or.inr (Or.inl hgt)

instance argsortRelTrans {β : Type} [LinearOrder β] (v : List β) (d : β) :
    IsTrans ℕ (argsortRel v d) := by
  constructor
  intro i j k hij hjk
  rcases hij with h1 | ⟨e1, l1⟩ <;> rcases hjk with h2 | ⟨e2, l2⟩
  · exact Or.inl (h1.trans h2)
  · exact Or.inl (e2 ▸ h1)
  · exact Or.inl (e1 ▸ h2)
  · exact Or.inr ⟨e1.trans e2, l1.trans l2⟩

/-- Embedding of `torch.argsort(v, dim=1)` on one sample: the list of indices
`0, …, v.length - 1` sorted ascending by the value they point at. -/
def argsort {β : Type} [LinearOrder β] (v : List β) (d : β) : List ℕ :=
  List.insertionSort (argsortRel v d) (List.range v.length)

/-- Token count kept by `random_masking` on a length-`L` sequence:
`len_keep = int(L * (1 - mask_ratio))` clipped by the slice `[:len_keep]`. -/
def keepCount (L : ℕ) (r : ℚ) : ℕ := sliceLen L (pyInt ((L : ℚ) * (1 - r)))

/-- Shuffled-order binary mask built at source lines 168-169:
`mask = torch.ones([N, L]); mask[:, :len_keep] = 0`. -/
def maskBase (kc L : ℕ) : List ℚ :=
  List.replicate kc 0 ++ List.replicate (L - kc) 1

/-- Embedding of `MaskedAutoencoderChannelViT.random_masking` on one sample.
`x` is the token sequence `[L, D]` (one list entry per token), `noise` the
vector drawn by `torch.rand(N, L)`, `r` the mask ratio, `d` a default token.
Returns `(x_masked, mask, ids_restore)`. -/
def random_masking {α : Type} (x : List α) (noise : List ℚ) (r : ℚ) (d : α) :
    List α × List ℚ × List ℕ :=
  let L := x.length
  -- len_keep = int(L * (1 - mask_ratio))
  let len_keep : ℤ := pyInt ((L : ℚ) * (1 - r))
  -- ids_shuffle = torch.argsort(noise, dim=1)
  let ids_shuffle := argsort noise 0
  -- ids_restore = torch.argsort(ids_shuffle, dim=1)
  let ids_restore := argsort ids_shuffle 0
  -- ids_keep = ids_shuffle[:, :len_keep]
  let ids_keep := ids_shuffle.take (sliceLen L len_keep)
  -- x_masked = torch.gather(x, dim=1, index=ids_keep ...)
  let x_masked := gather x ids_keep d
  -- mask = torch.ones([N, L]); mask[:, :len_keep] = 0
  -- mask = torch.gather(mask, dim=1, index=ids_restore)
  let mask := gather (maskBase (sliceLen L len_keep) L) ids_restore 1
  (x_masked, mask, ids_restore)

/-- Embedding of the mask-token refill and unshuffle of
`forward_decoder` (source lines 260-262, per-channel branch), with the
summary token stripped: append placeholder tokens `m` up to the full length
and gather with the restore permutation. -/
def fillAndRestore {α : Type} (x_masked : List α) (ids_restore : List ℕ) (m : α) :
    List α :=
  -- mask_tokens = self.mask_token.repeat(N, ids_restore.shape[1] + 1 - x.shape[1], 1)
  let mask_tokens := List.replicate (ids_restore.length + 1 - (x_masked.length + 1)) m
  -- x_ = torch.cat([x[:, 1:, :], mask_tokens], dim=1)
  let x_ := x_masked ++ mask_tokens
  -- x_ = torch.gather(x_, dim=1, index=ids_restore ...)  # unshuffle
  gather x_ ids_restore m

/-! ## Encoder / decoder pipeline (source lines 175-315)

The token grid after the per-channel patch embedding and the positional plus
channel embedding addition (source lines 180-198) is a collaborator-provided
input `embed_tokens : List (List ℚ)` of `c*L` feature rows in canonical
channel-major order; `PatchEmbed`, the transformer blocks, the layer norms
and the learned linear layers are opaque function parameters (spec section 6
collaborator contracts). -/

/-- Embedding of `x.permute(0, 2, 1, 3).reshape(b, L, -1)` (source line 202):
merge the `c` channel rows of each spatial location into one `c*D`-wide
row. -/
def mergeChannels (c L : ℕ) (xs : List (List ℚ)) : List (List ℚ) :=
  (List.range L).map (fun l =>
    ((List.range c).map (fun ch => xs.getD (ch * L + l) [])).flatten)

/-- Embedding of `x.view(b, ml, c, D).permute(0, 2, 1, 3).reshape(b, -1, D)`
(source line 204): split `ml` merged `c*D`-wide rows back into `c*ml`
`D`-wide rows in channel-major order. -/
def unmergeChannels (c D ml : ℕ) (ys : List (List ℚ)) : List (List ℚ) :=
  (List.range (c * ml)).map (fun i =>
    ((ys.getD (i % ml) []).drop ((i / ml) * D)).take D)

/-- Embedding of the masking-policy dispatch of `forward_encoder` (source
lines 200-214): the whole-location branch merges channels, masks over the
`L` spatial locations, splits the surviving rows back out and replicates the
mask `c` times (`mask.repeat(1, c)`); the per-channel branch masks the flat
`c*L` sequence directly. -/
def forward_encoder_masking (spatial : Bool) (c D L : ℕ) (xs : List (List ℚ))
    (noise : List ℚ) (r : ℚ) : List (List ℚ) × List ℚ × List ℕ :=
  if spatial then
    -- x = x.permute(0, 2, 1, 3).reshape(b, L, -1)
    let merged := mergeChannels c L xs
    -- x, mask, ids_restore = self.random_masking(x, mask_ratio)
    let res := random_masking merged noise r []
    -- x = x.view(b, x.shape[1], c, D).permute(0, 2, 1, 3).reshape(b, -1, D)
    -- mask = mask.repeat(1, c)
    (unmergeChannels c D res.1.length res.1,
     (List.replicate c res.2.1).flatten, res.2.2)
  else
    -- x, mask, ids_restore = self.random_masking(x.view(b, -1, D), mask_ratio)
    random_masking xs noise r []

/-- Embedding of `forward_encoder` after the embedding addition: apply the
masking policy, prepend the summary token, run the (collaborator) block
stack and norm.  Returns `(encoded sequence, mask, ids_restore)`. -/
def forward_encoder (spatial : Bool) (c D L : ℕ) (embed_tokens : List (List ℚ))
    (cls_token : List ℚ) (blocks : List (List ℚ) → List (List ℚ))
    (norm : List ℚ → List ℚ) (noise : List ℚ) (r : ℚ) :
    List (List ℚ) × List ℚ × List ℕ :=
  let res := forward_encoder_masking spatial c D L embed_tokens noise r
  -- x = torch.cat((cls_tokens, x), dim=1)
  let x := cls_token :: res.1
  -- for blk in self.blocks: x = blk(x) ; x = self.norm(x)
  ((blocks x).map norm, res.2.1, res.2.2)

/-- Embedding of `forward_decoder` (source lines 241-291).  `x` is the
encoder output (summary token first); `ids_restore` the restore permutation.
The learned `decoder_embed`, placeholder `mask_token`, frozen
`pos_channel` table (rows of the decoder positional plus channel embedding,
summary row first), block stack, norm and prediction head are parameters. -/
def forward_decoder (spatial : Bool) (c D : ℕ) (dec_embed : List ℚ → List ℚ)
    (mask_token : List ℚ) (pos_channel : List (List ℚ))
    (dec_blocks : List (List ℚ) → List (List ℚ)) (dec_norm : List ℚ → List ℚ)
    (dec_pred : List ℚ → List ℚ) (x : List (List ℚ)) (ids_restore : List ℕ) :
    List (List ℚ) :=
  -- x = self.decoder_embed(x)
  let x0 := x.map dec_embed
  let filled :=
    if spatial then
      -- x_ = x[:, 1:, :].view(N, c, -1, x.shape[2]).permute(0, 2, 1, 3)
      -- x_ = x_.reshape(N, ml, c*D)
      let ml := (x0.length - 1) / c
      let merged := mergeChannels c ml (x0.drop 1)
      -- mask_tokens = self.mask_token.repeat(N, L - ml, c)
      let mask_tokens :=
        List.replicate (ids_restore.length - ml) (List.replicate c mask_token).flatten
      -- x_ = torch.cat((x_, mask_tokens), dim=1)
      -- x_ = torch.gather(x_, dim=1, index=ids_restore ...)
      let g := gather (merged ++ mask_tokens) ids_restore []
      -- x_ = x_.view(N, L, c, D).permute(0, 2, 1, 3).reshape(N, -1, D)
      let xu := unmergeChannels c D ids_restore.length g
      -- x = torch.cat((x[:, :1, :], x_), dim=1)
      x0.take 1 ++ xu
    else
      -- mask_tokens = self.mask_token.repeat(N, ids_restore.shape[1] + 1 - x.shape[1], 1)
      let mask_tokens := List.replicate (ids_restore.length + 1 - x0.length) mask_token
      -- x_ = torch.cat([x[:, 1:, :], mask_tokens], dim=1)
      -- x_ = torch.gather(x_, dim=1, index=ids_restore ...)
      -- x = torch.cat([x[:, :1, :], x_], dim=1)
      x0.take 1 ++ gather (x0.drop 1 ++ mask_tokens) ids_restore []
  -- x = x + pos_channel
  let withPos := List.zipWith (fun t e => List.zipWith (fun a b => a + b) t e)
    filled pos_channel
  -- for blk in self.decoder_blocks: x = blk(x) ; x = self.decoder_norm(x)
  -- x = self.decoder_pred(x)
  let out := ((dec_blocks withPos).map dec_norm).map dec_pred
  -- x = x[:, 1:, :]
  out.drop 1

/-- Embedding of `forward_loss` (source lines 293-309) with the
`norm_pix_loss` flag off (its default; the normalization branch divides by a
float square root, which has no exact rational counterpart and is not used
by any claim).  `pred n t k` and `mask n t` are the prediction and mask
tensors as functions; the sums run over the batch `N` and the `c*h*h`
tokens, as `.sum()` does.  The division `/ mask.sum()` yields NaN when the
mask sums to zero; that outcome is embedded as `none`. -/
def forward_loss (p c h N : ℕ) (imgs : ℕ → ℕ → ℕ → ℕ → ℚ)
    (pred : ℕ → ℕ → ℕ → ℚ) (mask : ℕ → ℕ → ℚ) : Option ℚ :=
  -- target = self.patchify(imgs, p, c)
  let target := patchify p c h imgs
  -- loss = (pred - target) ** 2 ; loss = loss.mean(dim=-1)
  let lossTok : ℕ → ℕ → ℚ := fun n t =>
    ((Finset.range (p * p)).sum (fun k => (pred n t k - target n t k) ^ 2)) / (p * p)
  -- loss = (loss * mask).sum() / mask.sum()
  let num := (Finset.range N).sum (fun n =>
    (Finset.range (c * (h * h))).sum (fun t => lossTok n t * mask n t))
  let den := (Finset.range N).sum (fun n =>
    (Finset.range (c * (h * h))).sum (fun t => mask n t))
  if den = 0 then none else some (num / den)

/-- Embedding of `forward` (source lines 311-315) on a one-sample batch:
encoder, decoder, loss.  Returns `(loss, pred, mask)`. -/
def forward (spatial : Bool) (c D p h : ℕ) (embed_tokens : List (List ℚ))
    (cls_token : List ℚ) (enc_blocks : List (List ℚ) → List (List ℚ))
    (enc_norm : List ℚ → List ℚ) (dec_embed : List ℚ → List ℚ)
    (mask_token : List ℚ) (pos_channel : List (List ℚ))
    (dec_blocks : List (List ℚ) → List (List ℚ)) (dec_norm : List ℚ → List ℚ)
    (dec_pred : List ℚ → List ℚ) (imgs : ℕ → ℕ → ℕ → ℕ → ℚ)
    (noise : List ℚ) (r : ℚ) : Option ℚ × List (List ℚ) × List ℚ :=
  -- latent, mask, ids_restore = self.forward_encoder(imgs, mask_ratio)
  let enc := forward_encoder spatial c D (h * h) embed_tokens cls_token
    enc_blocks enc_norm noise r
  -- pred = self.forward_decoder(latent, ids_restore)
  let pred := forward_decoder spatial c D dec_embed mask_token pos_channel
    dec_blocks dec_norm dec_pred enc.1 enc.2.2
  -- loss = self.forward_loss(imgs, pred, mask)
  let loss := forward_loss p c h 1 imgs
    (fun _ t k => (pred.getD t []).getD k 0) (fun _ t => enc.2.1.getD t 0)
  (loss, pred, enc.2.1)

/-- Concrete token grid used by the end-to-end witnesses. -/
def wTok : List (List ℚ) := List.replicate 8 [0]

/-- Concrete per-channel noise draw (8 values). -/
def wNoiseP : List ℚ := [0, 1, 2, 3, 4, 5, 6, 7]

/-- Concrete whole-location noise draw (4 values). -/
def wNoiseS : List ℚ := [0, 1, 2, 3]

/-- Concrete decoder positional-plus-channel table (9 rows). -/
def wPos : List (List ℚ) := List.replicate 9 [0]

/-- Concrete prediction head emitting 4-wide rows. -/
def wPred : List ℚ → List ℚ := fun _ => [0, 0, 0, 0]

/-! ## Theorems

Each claim is settled by one theorem below; general lemmas shared between
claims precede the claim theorems they serve. -/

/-- Division/mod bookkeeping: the flat token index built by `patchify`
decomposes back into its channel and grid coordinates. -/
theorem flatIdx_div (ch i j h : ℕ) (hi : i < h) (hj : j < h) :
    (ch * (h * h) + (i * h + j)) / (h * h) = ch ∧
    (ch * (h * h) + (i * h + j)) % (h * h) = i * h + j ∧
    (i * h + j) / h = i ∧ (i * h + j) % h = j := by
  have hh : 0 < h := by omega
  have hr : i * h + j < h * h := by
    calc i * h + j < i * h + h := by omega
    _ = (i + 1) * h := by ring
    _ ≤ h * h := Nat.mul_le_mul_right h hi
  refine ⟨?_, ?_, ?_, ?_⟩
  · rw [Nat.mul_comm ch (h * h), Nat.mul_add_div (by positivity), Nat.div_eq_of_lt hr, Nat.add_zero]
  · rw [Nat.mul_comm ch (h * h), Nat.mul_add_mod, Nat.mod_eq_of_lt hr]
  · rw [Nat.mul_comm i h, Nat.mul_add_div hh, Nat.div_eq_of_lt hj, Nat.add_zero]
  · rw [Nat.mul_comm i h, Nat.mul_add_mod, Nat.mod_eq_of_lt hj]

/-- C4: the token that `patchify` places at flat index
`ch * L + (i * h + j)` (with `L = h * h` and the spatial index in row-major
raster order) is the flattened `p × p` pixel block of channel `ch` at grid
location `(i, j)`: entry `pp * p + qq` of the token is pixel
`(i*p + pp, j*p + qq)` of that channel. -/
theorem patchify_layout (p c h : ℕ) (imgs : ℕ → ℕ → ℕ → ℕ → ℚ)
    (n ch i j pp qq : ℕ) (hch : ch < c) (hi : i < h) (hj : j < h)
    (hpp : pp < p) (hqq : qq < p) :
    patchify p c h imgs n (ch * (h * h) + (i * h + j)) (pp * p + qq) =
      imgs n ch (i * p + pp) (j * p + qq) := by
  obtain ⟨e1, e2, e3, e4⟩ := flatIdx_div ch i j h hi hj
  have hp : 0 < p := by omega
  have k1 : (pp * p + qq) / p = pp := by
    rw [Nat.mul_comm pp p, Nat.mul_add_div hp, Nat.div_eq_of_lt hqq, Nat.add_zero]
  have k2 : (pp * p + qq) % p = qq := by
    rw [Nat.mul_comm pp p, Nat.mul_add_mod, Nat.mod_eq_of_lt hqq]
  simp only [patchify, e1, e2, e3, e4, k1, k2]

/-- Witness for `patchify_layout` at a concrete input. -/
theorem patchify_layout_witness :
    patchify 2 2 2 wImg 0 6 3 = wImg 0 1 3 1 :=
  patchify_layout 2 2 2 wImg 0 1 1 0 1 1 (by decide) (by decide) (by decide)
    (by decide) (by decide)

/-- C1: round trip.  For valid pixel coordinates (`a, b < h * p`, i.e. inside
an `h*p × h*p` image), `unpatchify` applied to `patchify` recovers the image
pixel-by-pixel, for every sample and channel index. -/
theorem unpatchify_patchify (p c h : ℕ) (imgs : ℕ → ℕ → ℕ → ℕ → ℚ)
    (n ch a b : ℕ) (ha : a < h * p) (hb : b < h * p) :
    unpatchify p c h (patchify p c h imgs) n ch a b = imgs n ch a b := by
  have hp : 0 < p := by
    rcases Nat.eq_zero_or_pos p with h0 | h0
    · subst h0; omega
    · exact h0
  have hda : a / p < h := Nat.div_lt_of_lt_mul (Nat.mul_comm h p ▸ ha)
  have hdb : b / p < h := Nat.div_lt_of_lt_mul (Nat.mul_comm h p ▸ hb)
  obtain ⟨e1, e2, e3, e4⟩ := flatIdx_div ch (a / p) (b / p) h hda hdb
  have k1 : (a % p * p + b % p) / p = a % p := by
    rw [Nat.mul_comm (a % p) p, Nat.mul_add_div hp,
      Nat.div_eq_of_lt (Nat.mod_lt b hp), Nat.add_zero]
  have k2 : (a % p * p + b % p) % p = b % p := by
    rw [Nat.mul_comm (a % p) p, Nat.mul_add_mod, Nat.mod_eq_of_lt (Nat.mod_lt b hp)]
  simp only [unpatchify, patchify, e1, e2, e3, e4, k1, k2]
  rw [Nat.div_add_mod' a p, Nat.div_add_mod' b p]

/-- Witness for `unpatchify_patchify` at a concrete input. -/
theorem unpatchify_patchify_witness :
    unpatchify 2 1 2 (patchify 2 1 2 wImg) 0 0 3 2 = wImg 0 0 3 2 :=
  unpatchify_patchify 2 1 2 wImg 0 0 3 2 (by decide) (by decide)

/-! ### Properties of `argsort` -/

/-- The index list produced by `argsort` is a permutation of `range`. -/
theorem argsort_perm {β : Type} [LinearOrder β] (v : List β) (d : β) :
    (argsort v d).Perm (List.range v.length) :=
  List.perm_insertionSort _ _

/-- Length of `argsort`. -/
theorem argsort_length {β : Type} [LinearOrder β] (v : List β) (d : β) :
    (argsort v d).length = v.length := by
  simpa using (argsort_perm v d).length_eq

/-- Values along `argsort` are ascending. -/
theorem argsort_sorted {β : Type} [LinearOrder β] (v : List β) (d : β) :
    List.Pairwise (fun i j => v.getD i d ≤ v.getD j d) (argsort v d) := by
  have h := List.sorted_insertionSort (argsortRel v d) (List.range v.length)
  refine h.imp ?_
  intro i j hij
  rcases hij with hlt | ⟨heq, _⟩
  · exact le_of_lt hlt
  · exact le_of_eq heq

/-- Reading a list back off through `getD` at `range` indices. -/
theorem map_getD_range {α : Type} (l : List α) (d : α) :
    (List.range l.length).map (fun i => l.getD i d) = l := by
  apply List.ext_getElem
  · simp
  · intro k h1 h2
    simp only [List.getElem_map, List.getElem_range]
    exact List.getD_eq_getElem l d h2

/-- Entry `k` of a mapped index list, through `getD`. -/
theorem getD_map_idx {α : Type} (f : ℕ → α) (l : List ℕ) (k : ℕ) (d : α)
    (hk : k < l.length) : (l.map f).getD k d = f (l.getD k 0) := by
  rw [List.getD_eq_getElem _ _ (by simpa using hk), List.getElem_map,
    List.getD_eq_getElem _ _ hk]

/-- Entry `k` of `range L`, through `getD`. -/
theorem getD_range (L k : ℕ) (hk : k < L) : (List.range L).getD k 0 = k := by
  rw [List.getD_eq_getElem _ _ (by simpa using hk), List.getElem_range]

/-- Entry `k` of a `gather`, through `getD`: reads `x` at index `idx[k]`. -/
theorem gather_getD {α : Type} (x : List α) (idx : List ℕ) (d d2 : α) (k : ℕ)
    (hk : k < idx.length) :
    (gather x idx d).getD k d2 = x.getD (idx.getD k 0) d :=
  getD_map_idx _ idx k d2 hk

/-- Key inverse property: if `s` is a permutation of `range L` (as
`ids_shuffle` is), then `argsort s` is its inverse permutation:
`s[argsort(s)[k]] = k` for `k < L`.  This is exactly the sense in which
`ids_restore = torch.argsort(ids_shuffle)` undoes the shuffle. -/
theorem argsort_inverse (s : List ℕ) (L : ℕ) (hs : s.Perm (List.range L))
    (k : ℕ) (hk : k < L) :
    s.getD ((argsort s 0).getD k 0) 0 = k := by
  have hlen : s.length = L := by simpa using hs.length_eq
  have hperm : (argsort s 0).Perm (List.range L) := by
    rw [← hlen]; exact argsort_perm s 0
  have e : (List.range L).map (fun i => s.getD i 0) = s := by
    rw [← hlen]; exact map_getD_range s 0
  have hmap : ((argsort s 0).map (fun i => s.getD i 0)).Perm (List.range L) := by
    have h1 := hperm.map (fun i => s.getD i 0)
    rw [e] at h1
    exact h1.trans hs
  have hsorted : List.Sorted (· ≤ ·) ((argsort s 0).map (fun i => s.getD i 0)) := by
    exact (List.pairwise_map).2 (argsort_sorted s 0)
  have hrange : List.Sorted (· ≤ ·) (List.range L) :=
    (List.pairwise_lt_range L).imp le_of_lt
  have heq : (argsort s 0).map (fun i => s.getD i 0) = List.range L :=
    List.eq_of_perm_of_sorted hmap hsorted hrange
  have hklen : k < (argsort s 0).length := by rw [argsort_length, hlen]; exact hk
  have t1 : ((argsort s 0).map (fun i => s.getD i 0)).getD k 0 =
      (List.range L).getD k 0 := by rw [heq]
  rw [getD_map_idx _ _ _ _ hklen, getD_range L k hk] at t1
  exact t1

/-- Every entry of `argsort` is an in-range index. -/
theorem argsort_getD_lt {β : Type} [LinearOrder β] (v : List β) (d : β)
    (k : ℕ) (hk : k < v.length) : (argsort v d).getD k 0 < v.length := by
  have hklen : k < (argsort v d).length := by rw [argsort_length]; exact hk
  have hmem : (argsort v d).getD k 0 ∈ argsort v d := by
    rw [List.getD_eq_getElem _ _ hklen]
    exact List.getElem_mem hklen
  have := (argsort_perm v d).mem_iff.1 hmem
  exact List.mem_range.1 this

/-! ### Small list facts used by the masking proofs -/

/-- Length of a `gather` is the length of the index list. -/
theorem gather_length {α : Type} (x : List α) (idx : List ℕ) (d : α) :
    (gather x idx d).length = idx.length := by simp [gather]

/-- A slice never selects more than the whole list. -/
theorem sliceLen_le (L : ℕ) (n : ℤ) : sliceLen L n ≤ L := by
  unfold sliceLen
  split <;> omega

/-- Reading a `replicate` with its own element as default always gives that
element. -/
theorem getD_replicate_self {α : Type} (n : ℕ) (a : α) (i : ℕ) :
    (List.replicate n a).getD i a = a := by
  induction n generalizing i with
  | zero => simp [List.getD]
  | succ n ih =>
    cases i with
    | zero => simp [List.replicate]
    | succ i => simpa [List.replicate] using ih i

/-- Entries of the shuffled-order mask: `0` before `len_keep`, `1` after. -/
theorem maskBase_getD (kc L i : ℕ) :
    (maskBase kc L).getD i 1 = if i < kc then 0 else 1 := by
  unfold maskBase
  by_cases h : i < kc
  · rw [if_pos h, List.getD_append _ _ _ _ (by simpa using h),
      List.getD_eq_getElem _ _ (by simpa using h)]
    simp
  · rw [if_neg h, List.getD_append_right _ _ _ _ (by simpa using Nat.le_of_not_lt h)]
    exact getD_replicate_self _ _ _

/-- Length of the shuffled-order mask. -/
theorem maskBase_length (kc L : ℕ) (h : kc ≤ L) : (maskBase kc L).length = L := by
  simp [maskBase]
  omega

/-- Reading inside the taken prefix reads the original list. -/
theorem getD_take {α : Type} (l : List α) (n i : ℕ) (d : α) (hi : i < n)
    (hil : i < l.length) : (l.take n).getD i d = l.getD i d := by
  rw [List.getD_eq_getElem _ _ (by simp [List.length_take]; omega),
    List.getD_eq_getElem _ _ hil]
  exact List.getElem_take l

/-- Unfolding of `random_masking` into its three components. -/
theorem random_masking_eq {α : Type} (x : List α) (noise : List ℚ) (r : ℚ) (d : α) :
    random_masking x noise r d =
      (gather x ((argsort noise 0).take (keepCount x.length r)) d,
       gather (maskBase (keepCount x.length r) x.length) (argsort (argsort noise 0) 0) 1,
       argsort (argsort noise 0) 0) := rfl

/-! ### C3: mask cardinality -/

/-- C3: with `mask_ratio` in the open interval `(0,1)`, `random_masking` on a
length-`L` sequence keeps exactly `⌊L·(1−r)⌋` tokens, and the returned
canonical-order mask has exactly `L − ⌊L·(1−r)⌋` entries equal to `1`. -/
theorem mask_cardinality {α : Type} (x : List α) (noise : List ℚ) (r : ℚ) (d : α)
    (L : ℕ) (hx : x.length = L) (hn : noise.length = L)
    (hr0 : 0 < r) (hr1 : r < 1) :
    (((random_masking x noise r d).1.length : ℤ) = ⌊(L : ℚ) * (1 - r)⌋) ∧
    (((random_masking x noise r d).2.1.count 1 : ℤ) =
      (L : ℤ) - ⌊(L : ℚ) * (1 - r)⌋) := by
  subst hx
  set L := x.length with hL
  have hq0 : 0 ≤ (L : ℚ) * (1 - r) := by
    have : (0:ℚ) ≤ 1 - r := by linarith
    positivity
  have hfl0 : 0 ≤ ⌊(L : ℚ) * (1 - r)⌋ := Int.floor_nonneg.2 hq0
  have hqL : (L : ℚ) * (1 - r) ≤ (L : ℚ) :=
    mul_le_of_le_one_right (Nat.cast_nonneg L) (by linarith)
  have hflL : ⌊(L : ℚ) * (1 - r)⌋ ≤ (L : ℤ) := by
    have := Int.floor_le_floor hqL
    rwa [Int.floor_natCast] at this
  have hkc : keepCount L r = (⌊(L : ℚ) * (1 - r)⌋).toNat := by
    unfold keepCount sliceLen pyInt
    rw [if_pos hq0, if_pos hfl0]
    exact Nat.min_eq_left (by omega)
  have hkcL : keepCount L r ≤ L := sliceLen_le _ _
  have hslen : (argsort noise 0).length = L := by rw [argsort_length, hn]
  have hcast : ((keepCount L r : ℕ) : ℤ) = ⌊(L : ℚ) * (1 - r)⌋ := by
    rw [hkc, Int.toNat_of_nonneg hfl0]
  constructor
  · rw [random_masking_eq]
    simp only [gather_length, List.length_take, hslen]
    rw [Nat.min_eq_left hkcL] at *
    omega
  · rw [random_masking_eq]
    simp only []
    have hperm : (argsort (argsort noise 0) 0).Perm (List.range L) := by
      rw [← hslen]; exact argsort_perm _ 0
    have hmb : (maskBase (keepCount L r) L).length = L := maskBase_length _ _ hkcL
    have hmap :
        ((argsort (argsort noise 0) 0).map
            (fun i => (maskBase (keepCount L r) L).getD i 1)).Perm
          (maskBase (keepCount L r) L) := by
      have h1 := hperm.map (fun i => (maskBase (keepCount L r) L).getD i 1)
      have e := map_getD_range (maskBase (keepCount L r) L) 1
      rw [hmb] at e
      rwa [e] at h1
    have hcount : (gather (maskBase (keepCount L r) L)
        (argsort (argsort noise 0) 0) 1).count 1 = L - keepCount L r := by
      unfold gather
      rw [hmap.count_eq 1]
      unfold maskBase
      rw [List.count_append]
      simp [List.count_replicate]
    rw [hcount]
    omega

/-! ### C2: restore correctness -/

/-- C2: `ids_restore` is the inverse of the shuffle.  Taking the kept tokens,
refilling with the placeholder token `m` up to the full length and gathering
with `ids_restore` (exactly the decoder refill, `fillAndRestore`) yields a
sequence in which every canonical position `j` with `mask[j] = 0` holds the
original token `x[j]`, and every position with `mask[j] = 1` holds the
placeholder. -/
theorem restore_correct {α : Type} (x : List α) (noise : List ℚ) (r : ℚ)
    (d m : α) (L j : ℕ) (hx : x.length = L) (hn : noise.length = L)
    (hj : j < L) :
    ((random_masking x noise r d).2.1.getD j 1 = 0 →
      (fillAndRestore (random_masking x noise r d).1
        (random_masking x noise r d).2.2 m).getD j m = x.getD j d) ∧
    ((random_masking x noise r d).2.1.getD j 1 = 1 →
      (fillAndRestore (random_masking x noise r d).1
        (random_masking x noise r d).2.2 m).getD j m = m) := by
  subst hx
  have hkcL : keepCount x.length r ≤ x.length := sliceLen_le _ _
  have hslen : (argsort noise 0).length = x.length := by rw [argsort_length, hn]
  have hs_perm : (argsort noise 0).Perm (List.range x.length) := by
    rw [← hn]; exact argsort_perm noise 0
  have ht_perm : (argsort (argsort noise 0) 0).Perm (List.range x.length) := by
    rw [← hslen]; exact argsort_perm _ 0
  have htlen : (argsort (argsort noise 0) 0).length = x.length := by
    simpa using ht_perm.length_eq
  have hjt : j < (argsort (argsort noise 0) 0).length := by omega
  have htake : ((argsort noise 0).take (keepCount x.length r)).length =
      keepCount x.length r := by
    rw [List.length_take]
    omega
  have hkeptlen : (gather x ((argsort noise 0).take (keepCount x.length r)) d).length
      = keepCount x.length r := by
    rw [gather_length, htake]
  have htj : (argsort (argsort noise 0) 0).getD j 0 < x.length := by
    have := argsort_getD_lt (argsort noise 0) 0 j (by omega)
    omega
  rw [random_masking_eq]
  simp only []
  rw [gather_getD _ _ _ _ _ hjt, maskBase_getD]
  unfold fillAndRestore
  simp only []
  rw [gather_getD _ _ _ _ _ hjt]
  rw [hkeptlen, htlen]
  by_cases hcase : (argsort (argsort noise 0) 0).getD j 0 < keepCount x.length r
  · rw [if_pos hcase]
    constructor
    · intro _
      rw [List.getD_append _ _ _ _ (by rw [hkeptlen]; exact hcase)]
      rw [gather_getD _ _ _ _ _ (by rw [htake]; exact hcase)]
      rw [getD_take _ _ _ _ hcase (by omega)]
      rw [argsort_inverse (argsort noise 0) x.length hs_perm j hj]
    · intro habs
      exact absurd habs (by norm_num)
  · rw [if_neg hcase]
    constructor
    · intro habs
      exact absurd habs (by norm_num)
    · intro _
      rw [List.getD_append_right _ _ _ _ (by rw [hkeptlen]; omega)]
      rw [hkeptlen]
      have hfill : x.length + 1 - (keepCount x.length r + 1) =
          x.length - keepCount x.length r := by omega
      rw [hfill]
      exact getD_replicate_self _ _ _

/-- Witness for `mask_cardinality` at a concrete input: `L = 4`,
`mask_ratio = 3/4`, a concrete noise draw. -/
theorem mask_cardinality_witness :
    ([(10:ℚ), 20, 30, 40].length = 4 ∧ [(3:ℚ)/8, 1/8, 7/8, 5/8].length = 4 ∧
      (0:ℚ) < 3/4 ∧ (3:ℚ)/4 < 1) ∧
    ((((random_masking [(10:ℚ), 20, 30, 40] [(3:ℚ)/8, 1/8, 7/8, 5/8] (3/4) 0).1.length
        : ℤ) = ⌊((4:ℕ) : ℚ) * (1 - 3/4)⌋) ∧
     (((random_masking [(10:ℚ), 20, 30, 40] [(3:ℚ)/8, 1/8, 7/8, 5/8] (3/4) 0).2.1.count 1
        : ℤ) = ((4:ℕ) : ℤ) - ⌊((4:ℕ) : ℚ) * (1 - 3/4)⌋)) :=
  ⟨⟨rfl, rfl, by norm_num, by norm_num⟩,
    mask_cardinality [(10:ℚ), 20, 30, 40] [(3:ℚ)/8, 1/8, 7/8, 5/8] (3/4) 0 4
      rfl rfl (by norm_num) (by norm_num)⟩

/-- Witness for `restore_correct` at a concrete input: `L = 2`,
`mask_ratio = 1/2`, position `j = 0`. -/
theorem restore_correct_witness :
    ([(10:ℚ), 20].length = 2 ∧ [(1:ℚ)/2, 1/4].length = 2 ∧ 0 < 2) ∧
    (((random_masking [(10:ℚ), 20] [(1:ℚ)/2, 1/4] (1/2) 0).2.1.getD 0 1 = 0 →
       (fillAndRestore (random_masking [(10:ℚ), 20] [(1:ℚ)/2, 1/4] (1/2) 0).1
         (random_masking [(10:ℚ), 20] [(1:ℚ)/2, 1/4] (1/2) 0).2.2 99).getD 0 99 =
         [(10:ℚ), 20].getD 0 0) ∧
     ((random_masking [(10:ℚ), 20] [(1:ℚ)/2, 1/4] (1/2) 0).2.1.getD 0 1 = 1 →
       (fillAndRestore (random_masking [(10:ℚ), 20] [(1:ℚ)/2, 1/4] (1/2) 0).1
         (random_masking [(10:ℚ), 20] [(1:ℚ)/2, 1/4] (1/2) 0).2.2 99).getD 0 99 = 99)) :=
  ⟨⟨rfl, rfl, by decide⟩,
    restore_correct [(10:ℚ), 20] [(1:ℚ)/2, 1/4] (1/2) (0:ℚ) 99 2 0 rfl rfl (by decide)⟩

/-! ### Shape and value helpers for the pipeline -/

/-- Reading entry `ch * L + l` of `c` concatenated copies of a length-`L`
list lands in copy `ch` at offset `l`. -/
theorem getD_flatten_replicate {α : Type} (m : List α) (L : ℕ) (hm : m.length = L)
    (d : α) : ∀ ch c l : ℕ, ch < c → l < L →
    ((List.replicate c m).flatten).getD (ch * L + l) d = m.getD l d := by
  intro ch
  induction ch with
  | zero =>
    intro c l hch hl
    obtain ⟨c', rfl⟩ : ∃ c', c = c' + 1 := ⟨c - 1, by omega⟩
    rw [List.replicate_succ, List.flatten_cons]
    rw [List.getD_append _ _ _ _ (by omega)]
    rw [Nat.zero_mul, Nat.zero_add]
  | succ ch ih =>
    intro c l hch hl
    obtain ⟨c', rfl⟩ : ∃ c', c = c' + 1 := ⟨c - 1, by omega⟩
    rw [List.replicate_succ, List.flatten_cons]
    rw [List.getD_append_right _ _ _ _ (by rw [hm]; nlinarith)]
    have e : (ch + 1) * L + l - m.length = ch * L + l := by rw [hm]; ring_nf; omega
    rw [e]
    exact ih c' l (by omega) hl

/-- Length of `c` concatenated copies of a list. -/
theorem flatten_replicate_length {α : Type} (c : ℕ) (m : List α) :
    ((List.replicate c m).flatten).length = c * m.length := by
  induction c with
  | zero => simp
  | succ n ih => simp only [List.replicate_succ, List.flatten_cons,
      List.length_append, ih]; ring

/-- Occurrence count in `c` concatenated copies of a list. -/
theorem count_flatten_replicate {α : Type} [BEq α] (c : ℕ) (m : List α) (a : α) :
    ((List.replicate c m).flatten).count a = c * m.count a := by
  induction c with
  | zero => simp
  | succ n ih => simp only [List.replicate_succ, List.flatten_cons,
      List.count_append, ih]; ring

/-- Members of concatenated copies are members of the copied list. -/
theorem mem_flatten_replicate {α : Type} (c : ℕ) (m : List α) (v : α)
    (hv : v ∈ (List.replicate c m).flatten) : v ∈ m := by
  obtain ⟨l, hl, hvl⟩ := List.mem_flatten.1 hv
  obtain ⟨-, rfl⟩ := List.mem_replicate.1 hl
  exact hvl

/-- Length of the merged-channel sequence. -/
theorem mergeChannels_length (c L : ℕ) (xs : List (List ℚ)) :
    (mergeChannels c L xs).length = L := by simp [mergeChannels]

/-- Length of the split-back sequence. -/
theorem unmergeChannels_length (c D ml : ℕ) (ys : List (List ℚ)) :
    (unmergeChannels c D ml ys).length = c * ml := by simp [unmergeChannels]

/-- Number of tokens kept by `random_masking`. -/
theorem random_masking_kept_length {α : Type} (x : List α) (noise : List ℚ)
    (r : ℚ) (d : α) (hn : noise.length = x.length) :
    (random_masking x noise r d).1.length = keepCount x.length r := by
  rw [random_masking_eq]
  simp only [gather_length, List.length_take, argsort_length, hn]
  exact Nat.min_eq_left (sliceLen_le _ _)

/-- Length of the canonical-order mask returned by `random_masking`. -/
theorem random_masking_mask_length {α : Type} (x : List α) (noise : List ℚ)
    (r : ℚ) (d : α) (hn : noise.length = x.length) :
    (random_masking x noise r d).2.1.length = x.length := by
  rw [random_masking_eq]
  simp only [gather_length, argsort_length, hn]

/-- Length of the restore permutation returned by `random_masking`. -/
theorem random_masking_restore_length {α : Type} (x : List α) (noise : List ℚ)
    (r : ℚ) (d : α) (hn : noise.length = x.length) :
    (random_masking x noise r d).2.2.length = x.length := by
  rw [random_masking_eq]
  simp only [argsort_length, hn]

/-- Every entry of the returned mask is `0` or `1`. -/
theorem random_masking_mask_vals {α : Type} (x : List α) (noise : List ℚ)
    (r : ℚ) (d : α) (v : ℚ) (hv : v ∈ (random_masking x noise r d).2.1) :
    v = 0 ∨ v = 1 := by
  rw [random_masking_eq] at hv
  simp only [gather, List.mem_map] at hv
  obtain ⟨i, -, rfl⟩ := hv
  rw [maskBase_getD]
  split
  · exact Or.inl rfl
  · exact Or.inr rfl

/-- Count of removed positions in the mask returned by `random_masking`. -/
theorem random_masking_mask_count {α : Type} (x : List α) (noise : List ℚ)
    (r : ℚ) (d : α) (hn : noise.length = x.length) :
    (random_masking x noise r d).2.1.count 1 = x.length - keepCount x.length r := by
  have hslen : (argsort noise 0).length = x.length := by rw [argsort_length, hn]
  have hperm : (argsort (argsort noise 0) 0).Perm (List.range x.length) := by
    rw [← hslen]; exact argsort_perm _ 0
  have hkcL : keepCount x.length r ≤ x.length := sliceLen_le _ _
  have hmb : (maskBase (keepCount x.length r) x.length).length = x.length :=
    maskBase_length _ _ hkcL
  rw [random_masking_eq]
  simp only [gather]
  have hmap :
      ((argsort (argsort noise 0) 0).map
          (fun i => (maskBase (keepCount x.length r) x.length).getD i 1)).Perm
        (maskBase (keepCount x.length r) x.length) := by
    have h1 := hperm.map (fun i => (maskBase (keepCount x.length r) x.length).getD i 1)
    have e := map_getD_range (maskBase (keepCount x.length r) x.length) 1
    rw [hmb] at e
    rwa [e] at h1
  rw [hmap.count_eq 1]
  unfold maskBase
  rw [List.count_append]
  simp [List.count_replicate]

/-! ### C5: whole-location mask uniformity -/

/-- C5: under the whole-location policy (`spatial_mask = True`), the
returned `c*L`-length mask takes the same value at index `ch * L + l` for
every channel index `ch`: all channels of a spatial location share one
visibility flag. -/
theorem spatial_mask_uniform (c D L : ℕ) (xs : List (List ℚ)) (noise : List ℚ)
    (r : ℚ) (hn : noise.length = L) (ch1 ch2 l : ℕ)
    (h1 : ch1 < c) (h2 : ch2 < c) (hl : l < L) :
    (forward_encoder_masking true c D L xs noise r).2.1.getD (ch1 * L + l) 1 =
      (forward_encoder_masking true c D L xs noise r).2.1.getD (ch2 * L + l) 1 := by
  have hnm : noise.length = (mergeChannels c L xs).length := by
    rw [mergeChannels_length]; exact hn
  have hmask : (random_masking (mergeChannels c L xs) noise r
      ([] : List ℚ)).2.1.length = L := by
    rw [random_masking_mask_length _ _ _ _ hnm, mergeChannels_length]
  simp only [forward_encoder_masking, if_pos]
  rw [getD_flatten_replicate _ L hmask 1 ch1 c l h1 hl,
    getD_flatten_replicate _ L hmask 1 ch2 c l h2 hl]

/-- Witness for `spatial_mask_uniform` at a concrete input: `c = 2`,
`L = 2`, location `l = 1`, channels `0` and `1`. -/
theorem spatial_mask_uniform_witness :
    ([(1:ℚ), 2].length = 2 ∧ 0 < 2 ∧ 1 < 2) ∧
    (forward_encoder_masking true 2 1 2 [[(5:ℚ)], [6], [7], [8]] [(1:ℚ), 2]
        (1/2)).2.1.getD (0 * 2 + 1) 1 =
      (forward_encoder_masking true 2 1 2 [[(5:ℚ)], [6], [7], [8]] [(1:ℚ), 2]
        (1/2)).2.1.getD (1 * 2 + 1) 1 :=
  ⟨⟨rfl, by decide, by decide⟩,
    spatial_mask_uniform 2 1 2 [[(5:ℚ)], [6], [7], [8]] [(1:ℚ), 2] (1/2) rfl
      0 1 1 (by decide) (by decide) (by decide)⟩

/-! ### C10: mask and restore-permutation lengths -/

/-- Length of the decoder output under the whole-location policy: the
decoder gathers merged `c*D`-wide rows over the `L = ids_restore.length`
locations and splits them back, emitting `c * ids_restore.length` tokens.
The block stack is assumed length-preserving. -/
theorem forward_decoder_length_spatial (c D : ℕ)
    (dec_embed : List ℚ → List ℚ) (mask_token : List ℚ)
    (pos_channel : List (List ℚ)) (dec_blocks : List (List ℚ) → List (List ℚ))
    (dec_norm : List ℚ → List ℚ) (dec_pred : List ℚ → List ℚ)
    (x : List (List ℚ)) (ids_restore : List ℕ)
    (hdb : ∀ s, (dec_blocks s).length = s.length) (hx : 1 ≤ x.length)
    (hpc : pos_channel.length = 1 + c * ids_restore.length) :
    (forward_decoder true c D dec_embed mask_token pos_channel dec_blocks
        dec_norm dec_pred x ids_restore).length = c * ids_restore.length := by
  simp only [forward_decoder, if_pos]
  simp only [List.length_drop, List.length_map, hdb, List.length_zipWith,
    List.length_append, List.length_take, unmergeChannels_length, hpc]
  omega

/-- Length of the decoder output under the per-channel policy: the gather
runs over the flat sequence, emitting `ids_restore.length` tokens.  The
block stack is assumed length-preserving. -/
theorem forward_decoder_length_flat (c D : ℕ)
    (dec_embed : List ℚ → List ℚ) (mask_token : List ℚ)
    (pos_channel : List (List ℚ)) (dec_blocks : List (List ℚ) → List (List ℚ))
    (dec_norm : List ℚ → List ℚ) (dec_pred : List ℚ → List ℚ)
    (x : List (List ℚ)) (ids_restore : List ℕ)
    (hdb : ∀ s, (dec_blocks s).length = s.length) (hx : 1 ≤ x.length)
    (hpc : pos_channel.length = 1 + ids_restore.length) :
    (forward_decoder false c D dec_embed mask_token pos_channel dec_blocks
        dec_norm dec_pred x ids_restore).length = ids_restore.length := by
  simp only [forward_decoder]
  rw [if_neg Bool.false_ne_true]
  simp only [List.length_drop, List.length_map, hdb, List.length_zipWith,
    List.length_append, List.length_take, gather_length, hpc]
  omega

/-- C10: for a `c*L`-token grid, the mask returned by the encoder has length
`c*L` under both policies, while the restore permutation has length `L`
under the whole-location policy and `c*L` under the per-channel policy; the
decoder nevertheless emits `c*L` tokens from either restore permutation,
because its whole-location branch gathers merged `c`-channel rows. -/
theorem mask_restore_lengths (c D L : ℕ) (xs : List (List ℚ))
    (noise_s noise_p : List ℚ) (r : ℚ)
    (dec_embed : List ℚ → List ℚ) (mask_token : List ℚ)
    (pos_channel_s pos_channel_p : List (List ℚ))
    (dec_blocks : List (List ℚ) → List (List ℚ))
    (dec_norm : List ℚ → List ℚ) (dec_pred : List ℚ → List ℚ)
    (x1 x2 : List (List ℚ))
    (hxs : xs.length = c * L) (hns : noise_s.length = L)
    (hnp : noise_p.length = c * L)
    (hdb : ∀ s, (dec_blocks s).length = s.length)
    (hx1 : 1 ≤ x1.length) (hx2 : 1 ≤ x2.length)
    (hpcs : pos_channel_s.length = 1 + c * L)
    (hpcp : pos_channel_p.length = 1 + c * L) :
    ((forward_encoder_masking true c D L xs noise_s r).2.1.length = c * L ∧
     (forward_encoder_masking true c D L xs noise_s r).2.2.length = L) ∧
    ((forward_encoder_masking false c D L xs noise_p r).2.1.length = c * L ∧
     (forward_encoder_masking false c D L xs noise_p r).2.2.length = c * L) ∧
    (forward_decoder true c D dec_embed mask_token pos_channel_s dec_blocks
        dec_norm dec_pred x1
        (forward_encoder_masking true c D L xs noise_s r).2.2).length = c * L ∧
    (forward_decoder false c D dec_embed mask_token pos_channel_p dec_blocks
        dec_norm dec_pred x2
        (forward_encoder_masking false c D L xs noise_p r).2.2).length = c * L := by
  have hnm : noise_s.length = (mergeChannels c L xs).length := by
    rw [mergeChannels_length]; exact hns
  have hrs : (forward_encoder_masking true c D L xs noise_s r).2.2.length = L := by
    simp only [forward_encoder_masking, if_pos]
    rw [random_masking_restore_length _ _ _ _ hnm, mergeChannels_length]
  have hrp : (forward_encoder_masking false c D L xs noise_p r).2.2.length
      = c * L := by
    simp only [forward_encoder_masking]
    rw [if_neg Bool.false_ne_true]
    rw [random_masking_restore_length _ _ _ _ (by rw [hxs]; exact hnp), hxs]
  refine ⟨⟨?_, hrs⟩, ⟨?_, hrp⟩, ?_, ?_⟩
  · simp only [forward_encoder_masking, if_pos]
    rw [flatten_replicate_length, random_masking_mask_length _ _ _ _ hnm,
      mergeChannels_length]
  · simp only [forward_encoder_masking]
    rw [if_neg Bool.false_ne_true]
    rw [random_masking_mask_length _ _ _ _ (by rw [hxs]; exact hnp), hxs]
  · rw [forward_decoder_length_spatial c D _ _ _ _ _ _ _ _ hdb hx1
      (by rw [hrs]; exact hpcs), hrs]
  · rw [forward_decoder_length_flat c D _ _ _ _ _ _ _ _ hdb hx2
      (by rw [hrp]; exact hpcp), hrp]

/-- Witness for `mask_restore_lengths` at a concrete input: `c = 2`,
`L = 2`, identity collaborators. -/
theorem mask_restore_lengths_witness :
    (((forward_encoder_masking true 2 1 2 [[(5:ℚ)], [6], [7], [8]] [(1:ℚ), 2]
        (1/2)).2.1.length = 2 * 2 ∧
      (forward_encoder_masking true 2 1 2 [[(5:ℚ)], [6], [7], [8]] [(1:ℚ), 2]
        (1/2)).2.2.length = 2) ∧
     ((forward_encoder_masking false 2 1 2 [[(5:ℚ)], [6], [7], [8]]
        [(1:ℚ), 2, 3, 4] (1/2)).2.1.length = 2 * 2 ∧
      (forward_encoder_masking false 2 1 2 [[(5:ℚ)], [6], [7], [8]]
        [(1:ℚ), 2, 3, 4] (1/2)).2.2.length = 2 * 2) ∧
     (forward_decoder true 2 1 id [0] (List.replicate 5 [(0:ℚ)]) id id id [[(0:ℚ)]]
        (forward_encoder_masking true 2 1 2 [[(5:ℚ)], [6], [7], [8]] [(1:ℚ), 2]
          (1/2)).2.2).length = 2 * 2 ∧
     (forward_decoder false 2 1 id [0] (List.replicate 5 [(0:ℚ)]) id id id [[(0:ℚ)]]
        (forward_encoder_masking false 2 1 2 [[(5:ℚ)], [6], [7], [8]]
          [(1:ℚ), 2, 3, 4] (1/2)).2.2).length = 2 * 2) :=
  mask_restore_lengths 2 1 2 [[(5:ℚ)], [6], [7], [8]] [(1:ℚ), 2] [(1:ℚ), 2, 3, 4]
    (1/2) id [0] (List.replicate 5 [(0:ℚ)]) (List.replicate 5 [(0:ℚ)]) id id id
    [[(0:ℚ)]] [[(0:ℚ)]] rfl rfl rfl (fun s => rfl) (by decide) (by decide)
    (by decide) (by decide)

/-! ### C6 and C8: the loss evaluator -/

/-- C6: when the mask has nonzero total weight, `forward_loss` equals the
sum over samples and tokens of (per-token mean squared error against the
patchified target, times the mask value), divided by the total mask weight;
and any two predictions that agree on every token with `mask ≠ 0` produce
the same loss — tokens with `mask = 0` contribute nothing, whatever their
prediction error. -/
theorem forward_loss_masked_weighting (p c h N : ℕ) (imgs : ℕ → ℕ → ℕ → ℕ → ℚ)
    (pred pred2 : ℕ → ℕ → ℕ → ℚ) (mask : ℕ → ℕ → ℚ)
    (hden : (Finset.range N).sum (fun n =>
      (Finset.range (c * (h * h))).sum (fun t => mask n t)) ≠ 0)
    (hagree : ∀ n, n < N → ∀ t, t < c * (h * h) → mask n t ≠ 0 →
      ∀ k, pred2 n t k = pred n t k) :
    forward_loss p c h N imgs pred mask =
      some (((Finset.range N).sum (fun n =>
          (Finset.range (c * (h * h))).sum (fun t =>
            (((Finset.range (p * p)).sum
                (fun k => (pred n t k - patchify p c h imgs n t k) ^ 2)) / (p * p))
              * mask n t))) /
        ((Finset.range N).sum (fun n =>
          (Finset.range (c * (h * h))).sum (fun t => mask n t)))) ∧
    forward_loss p c h N imgs pred2 mask = forward_loss p c h N imgs pred mask := by
  constructor
  · unfold forward_loss
    rw [if_neg hden]
  · unfold forward_loss
    rw [if_neg hden, if_neg hden]
    have hnum : (Finset.range N).sum (fun n =>
        (Finset.range (c * (h * h))).sum (fun t =>
          (((Finset.range (p * p)).sum
              (fun k => (pred2 n t k - patchify p c h imgs n t k) ^ 2)) / (p * p))
            * mask n t)) =
        (Finset.range N).sum (fun n =>
          (Finset.range (c * (h * h))).sum (fun t =>
            (((Finset.range (p * p)).sum
                (fun k => (pred n t k - patchify p c h imgs n t k) ^ 2)) / (p * p))
              * mask n t)) := by
      refine Finset.sum_congr rfl (fun n hn => Finset.sum_congr rfl (fun t ht => ?_))
      by_cases hm : mask n t = 0
      · rw [hm, mul_zero, mul_zero]
      · have he := hagree n (Finset.mem_range.1 hn) t (Finset.mem_range.1 ht) hm
        have : (Finset.range (p * p)).sum
            (fun k => (pred2 n t k - patchify p c h imgs n t k) ^ 2) =
            (Finset.range (p * p)).sum
              (fun k => (pred n t k - patchify p c h imgs n t k) ^ 2) := by
          refine Finset.sum_congr rfl (fun k _ => ?_)
          rw [he k]
        rw [this]
    rw [hnum]

/-- Witness for `forward_loss_masked_weighting` at a concrete input. -/
theorem forward_loss_masked_weighting_witness :
    ((Finset.range 1).sum (fun n =>
      (Finset.range (1 * (1 * 1))).sum (fun t => (fun _ _ => (1:ℚ)) n t)) ≠ 0) ∧
    (forward_loss 1 1 1 1 wImg (fun _ _ _ => 0) (fun _ _ => 1) =
      some (((Finset.range 1).sum (fun n =>
          (Finset.range (1 * (1 * 1))).sum (fun t =>
            (((Finset.range (1 * 1)).sum
                (fun k => ((fun _ _ _ => (0:ℚ)) n t k - patchify 1 1 1 wImg n t k) ^ 2))
                / (1 * 1)) * (fun _ _ => (1:ℚ)) n t))) /
        ((Finset.range 1).sum (fun n =>
          (Finset.range (1 * (1 * 1))).sum (fun t => (fun _ _ => (1:ℚ)) n t)))) ∧
     forward_loss 1 1 1 1 wImg (fun _ _ _ => 0) (fun _ _ => 1) =
       forward_loss 1 1 1 1 wImg (fun _ _ _ => 0) (fun _ _ => 1)) :=
  ⟨by simp,
    forward_loss_masked_weighting 1 1 1 1 wImg (fun _ _ _ => 0) (fun _ _ => 0)
      (fun _ _ => 1) (by simp) (fun n _ t _ _ k => rfl)⟩

/-- C8: the division at source line 308 has denominator exactly the mask
sum: a mask summing to zero makes `forward_loss` divide by zero (the NaN
outcome, embedded as `none`), and any mask with positive sum gives a
well-defined value. -/
theorem forward_loss_zero_mask (p c h N : ℕ) (imgs : ℕ → ℕ → ℕ → ℕ → ℚ)
    (pred : ℕ → ℕ → ℕ → ℚ) (mask : ℕ → ℕ → ℚ) :
    ((Finset.range N).sum (fun n =>
        (Finset.range (c * (h * h))).sum (fun t => mask n t)) = 0 →
      forward_loss p c h N imgs pred mask = none) ∧
    (0 < (Finset.range N).sum (fun n =>
        (Finset.range (c * (h * h))).sum (fun t => mask n t)) →
      ∃ q, forward_loss p c h N imgs pred mask = some q) := by
  constructor
  · intro h0
    unfold forward_loss
    rw [if_pos h0]
  · intro hpos
    unfold forward_loss
    rw [if_neg (ne_of_gt hpos)]
    exact ⟨_, rfl⟩

/-- Witness for `forward_loss_zero_mask`: the all-zero mask yields `none`,
an all-one mask yields a value. -/
theorem forward_loss_zero_mask_witness :
    forward_loss 1 1 1 1 wImg (fun _ _ _ => 0) (fun _ _ => 0) = none ∧
    ∃ q, forward_loss 1 1 1 1 wImg (fun _ _ _ => 0) (fun _ _ => 1) = some q :=
  ⟨(forward_loss_zero_mask 1 1 1 1 wImg (fun _ _ _ => 0) (fun _ _ => 0)).1 (by simp),
   (forward_loss_zero_mask 1 1 1 1 wImg (fun _ _ _ => 0) (fun _ _ => 1)).2
     (by norm_num)⟩

/-! ### Helpers for the end-to-end claims -/

/-- Summing a list through `getD` over its index range is the list sum. -/
theorem sum_getD_range (l : List ℚ) (d : ℚ) :
    (Finset.range l.length).sum (fun t => l.getD t d) = l.sum := by
  induction l with
  | nil => simp
  | cons a tl ih =>
    rw [List.length_cons, Finset.sum_range_succ', List.sum_cons]
    simp only [List.getD_cons_succ, List.getD_cons_zero]
    rw [ih]
    ring

/-- A list of zeros and ones sums to its count of ones. -/
theorem sum_eq_count_ones (l : List ℚ) (hv : ∀ v ∈ l, v = 0 ∨ v = 1) :
    l.sum = (l.count 1 : ℚ) := by
  induction l with
  | nil => simp
  | cons a tl ih =>
    have ha := hv a (List.mem_cons_self a tl)
    have htl : ∀ v ∈ tl, v = 0 ∨ v = 1 :=
      fun v hvv => hv v (List.mem_cons_of_mem a hvv)
    rw [List.sum_cons, List.count_cons, ih htl]
    rcases ha with h0 | h1
    · subst h0
      rw [if_neg (by decide : ¬(((0:ℚ) == 1) = true))]
      push_cast
      ring
    · subst h1
      rw [if_pos (by decide : (((1:ℚ) == 1) = true))]
      push_cast
      ring

/-- A list of ones sums to its length. -/
theorem sum_eq_length_ones (l : List ℚ) (hv : ∀ v ∈ l, v = 1) :
    l.sum = (l.length : ℚ) := by
  induction l with
  | nil => simp
  | cons a tl ih =>
    have htl : ∀ v ∈ tl, v = 1 := fun v hvv => hv v (List.mem_cons_of_mem a hvv)
    rw [List.sum_cons, hv a (List.mem_cons_self a tl), ih htl, List.length_cons]
    push_cast
    ring

/-- Unfolding of `forward_encoder` into its components. -/
theorem forward_encoder_eq (spatial : Bool) (c D L : ℕ)
    (embed_tokens : List (List ℚ)) (cls_token : List ℚ)
    (blocks : List (List ℚ) → List (List ℚ)) (norm : List ℚ → List ℚ)
    (noise : List ℚ) (r : ℚ) :
    forward_encoder spatial c D L embed_tokens cls_token blocks norm noise r =
      ((blocks (cls_token ::
          (forward_encoder_masking spatial c D L embed_tokens noise r).1)).map norm,
       (forward_encoder_masking spatial c D L embed_tokens noise r).2.1,
       (forward_encoder_masking spatial c D L embed_tokens noise r).2.2) := rfl

/-- Unfolding of `forward` into its components. -/
theorem forward_eq (spatial : Bool) (c D p h : ℕ) (embed_tokens : List (List ℚ))
    (cls_token : List ℚ) (enc_blocks : List (List ℚ) → List (List ℚ))
    (enc_norm : List ℚ → List ℚ) (dec_embed : List ℚ → List ℚ)
    (mask_token : List ℚ) (pos_channel : List (List ℚ))
    (dec_blocks : List (List ℚ) → List (List ℚ)) (dec_norm : List ℚ → List ℚ)
    (dec_pred : List ℚ → List ℚ) (imgs : ℕ → ℕ → ℕ → ℕ → ℚ)
    (noise : List ℚ) (r : ℚ) :
    forward spatial c D p h embed_tokens cls_token enc_blocks enc_norm dec_embed
        mask_token pos_channel dec_blocks dec_norm dec_pred imgs noise r =
      (forward_loss p c h 1 imgs
        (fun _ t k => ((forward_decoder spatial c D dec_embed mask_token
          pos_channel dec_blocks dec_norm dec_pred
          (forward_encoder spatial c D (h * h) embed_tokens cls_token enc_blocks
            enc_norm noise r).1
          (forward_encoder spatial c D (h * h) embed_tokens cls_token enc_blocks
            enc_norm noise r).2.2).getD t []).getD k 0)
        (fun _ t => (forward_encoder spatial c D (h * h) embed_tokens cls_token
          enc_blocks enc_norm noise r).2.1.getD t 0),
       forward_decoder spatial c D dec_embed mask_token pos_channel dec_blocks
        dec_norm dec_pred
        (forward_encoder spatial c D (h * h) embed_tokens cls_token enc_blocks
          enc_norm noise r).1
        (forward_encoder spatial c D (h * h) embed_tokens cls_token enc_blocks
          enc_norm noise r).2.2,
       (forward_encoder spatial c D (h * h) embed_tokens cls_token enc_blocks
        enc_norm noise r).2.1) := rfl

/-- With `mask_ratio = 1`, `len_keep = int(L * 0) = 0`. -/
theorem keepCount_at_one (L : ℕ) : keepCount L 1 = 0 := by
  unfold keepCount sliceLen pyInt
  norm_num

/-- When nothing is kept, every mask entry is `1`. -/
theorem random_masking_mask_all_ones {α : Type} (x : List α) (noise : List ℚ)
    (r : ℚ) (d : α) (hkc : keepCount x.length r = 0)
    (v : ℚ) (hv : v ∈ (random_masking x noise r d).2.1) : v = 1 := by
  rcases random_masking_mask_vals x noise r d v hv with h0 | h1
  · exfalso
    rw [random_masking_eq] at hv
    simp only [gather, List.mem_map] at hv
    obtain ⟨i, -, hi⟩ := hv
    rw [maskBase_getD, hkc] at hi
    rw [if_neg (by omega)] at hi
    rw [← hi] at h0
    norm_num at h0
  · exact h1

/-- When the mask list has only nonnegative entries, so do its `getD`
reads. -/
theorem getD_nonneg_of_vals (l : List ℚ) (hv : ∀ v ∈ l, v = 0 ∨ v = 1) (t : ℕ) :
    0 ≤ l.getD t 0 := by
  by_cases ht : t < l.length
  · have hm : l.getD t 0 ∈ l := by
      rw [List.getD_eq_getElem _ _ ht]
      exact List.getElem_mem ht
    rcases hv _ hm with h | h <;> rw [h] <;> norm_num
  · rw [List.getD_eq_default _ _ (by omega)]

/-- When the mask has a positive total weight and only nonnegative entries,
`forward_loss` is a well-defined nonnegative rational. -/
theorem forward_loss_some_nonneg (p c h N : ℕ) (imgs : ℕ → ℕ → ℕ → ℕ → ℚ)
    (pred : ℕ → ℕ → ℕ → ℚ) (mask : ℕ → ℕ → ℚ)
    (hnn : ∀ n t, 0 ≤ mask n t)
    (hden : (Finset.range N).sum (fun n =>
      (Finset.range (c * (h * h))).sum (fun t => mask n t)) ≠ 0) :
    ∃ q, forward_loss p c h N imgs pred mask = some q ∧ 0 ≤ q := by
  unfold forward_loss
  rw [if_neg hden]
  refine ⟨_, rfl, ?_⟩
  have hd0 : (0:ℚ) ≤ (Finset.range N).sum (fun n =>
      (Finset.range (c * (h * h))).sum (fun t => mask n t)) :=
    Finset.sum_nonneg (fun n _ => Finset.sum_nonneg (fun t _ => hnn n t))
  have hn0 : (0:ℚ) ≤ (Finset.range N).sum (fun n =>
      (Finset.range (c * (h * h))).sum (fun t =>
        (((Finset.range (p * p)).sum
            (fun k => (pred n t k - patchify p c h imgs n t k) ^ 2)) / (p * p))
          * mask n t)) := by
    refine Finset.sum_nonneg (fun n _ => Finset.sum_nonneg (fun t _ => ?_))
    refine mul_nonneg (div_nonneg ?_ (by positivity)) (hnn n t)
    exact Finset.sum_nonneg (fun k _ => sq_nonneg _)
  exact div_nonneg hn0 hd0

/-! ### C7: no validation of `mask_ratio` -/

/-- C7 (amended): the source never validates `mask_ratio`.  With the
out-of-range value `mask_ratio = 1` (outside the open interval `(0,1)`),
`forward` raises nothing and returns a complete result: the loss slot holds
a defined rational (the all-ones mask has positive total weight), and the
returned mask has full length `c*L` with every entry equal to `1`. -/
theorem forward_no_ratio_check (c D p h : ℕ) (embed_tokens : List (List ℚ))
    (cls_token : List ℚ) (enc_blocks : List (List ℚ) → List (List ℚ))
    (enc_norm : List ℚ → List ℚ) (dec_embed : List ℚ → List ℚ)
    (mask_token : List ℚ) (pos_channel : List (List ℚ))
    (dec_blocks : List (List ℚ) → List (List ℚ)) (dec_norm : List ℚ → List ℚ)
    (dec_pred : List ℚ → List ℚ) (imgs : ℕ → ℕ → ℕ → ℕ → ℚ) (noise : List ℚ)
    (hc : 0 < c) (hh : 0 < h)
    (hembed : embed_tokens.length = c * (h * h))
    (hn : noise.length = c * (h * h)) :
    (∃ q, (forward false c D p h embed_tokens cls_token enc_blocks enc_norm
        dec_embed mask_token pos_channel dec_blocks dec_norm dec_pred imgs
        noise 1).1 = some q) ∧
    (forward false c D p h embed_tokens cls_token enc_blocks enc_norm dec_embed
        mask_token pos_channel dec_blocks dec_norm dec_pred imgs noise 1).2.2.length
      = c * (h * h) ∧
    (∀ v ∈ (forward false c D p h embed_tokens cls_token enc_blocks enc_norm
        dec_embed mask_token pos_channel dec_blocks dec_norm dec_pred imgs
        noise 1).2.2, v = 1) := by
  have hnm : noise.length = embed_tokens.length := by rw [hn, hembed]
  have hmaskenc : (forward_encoder false c D (h * h) embed_tokens cls_token
      enc_blocks enc_norm noise 1).2.1 =
      (random_masking embed_tokens noise 1 ([] : List ℚ)).2.1 := by
    rw [forward_encoder_eq]
    simp only [forward_encoder_masking]
    rw [if_neg Bool.false_ne_true]
  have hmlen : (random_masking embed_tokens noise 1 ([] : List ℚ)).2.1.length
      = c * (h * h) := by
    rw [random_masking_mask_length _ _ _ _ hnm, hembed]
  have hones : ∀ v ∈ (random_masking embed_tokens noise 1 ([] : List ℚ)).2.1,
      v = 1 :=
    fun v hv => random_masking_mask_all_ones embed_tokens noise 1 [] 
      (keepCount_at_one _) v hv
  have hden : (Finset.range 1).sum (fun _ =>
      (Finset.range (c * (h * h))).sum (fun t =>
        (random_masking embed_tokens noise 1 ([] : List ℚ)).2.1.getD t 0)) ≠ 0 := by
    rw [Finset.sum_range_one, ← hmlen, sum_getD_range,
      sum_eq_length_ones _ hones, hmlen]
    have : c * (h * h) ≠ 0 := by positivity
    exact_mod_cast this
  refine ⟨?_, ?_, ?_⟩
  · rw [forward_eq]
    simp only [hmaskenc]
    unfold forward_loss
    rw [if_neg hden]
    exact ⟨_, rfl⟩
  · rw [forward_eq]
    simp only [hmaskenc]
    exact hmlen
  · rw [forward_eq]
    simp only [hmaskenc]
    exact hones

/-- Witness for `forward_no_ratio_check` at a concrete input: `c = 2`,
`h = 1`, identity collaborators, `mask_ratio = 1`. -/
theorem forward_no_ratio_check_witness :
    (0 < 2 ∧ 0 < 1 ∧ ([[(0:ℚ)], [0]] : List (List ℚ)).length = 2 * (1 * 1) ∧
      [(0:ℚ), 1].length = 2 * (1 * 1)) ∧
    ((∃ q, (forward false 2 1 1 1 [[(0:ℚ)], [0]] [0] id id id [0] [[0]] id id id
        wImg [(0:ℚ), 1] 1).1 = some q) ∧
     (forward false 2 1 1 1 [[(0:ℚ)], [0]] [0] id id id [0] [[0]] id id id
        wImg [(0:ℚ), 1] 1).2.2.length = 2 * (1 * 1) ∧
     (∀ v ∈ (forward false 2 1 1 1 [[(0:ℚ)], [0]] [0] id id id [0] [[0]] id id
        id wImg [(0:ℚ), 1] 1).2.2, v = 1)) :=
  ⟨⟨by decide, by decide, rfl, rfl⟩,
    forward_no_ratio_check 2 1 1 1 [[(0:ℚ)], [0]] [0] id id id [0] [[0]] id id
      id wImg [(0:ℚ), 1] (by decide) (by decide) rfl rfl⟩

/-- Counterexample to C7 as stated: `mask_ratio = 1` lies outside `(0,1)`,
yet the forward pass surfaces no error and returns a result — here the loss
slot of the returned triple is filled (`isSome`), so a partial (in fact
complete) result IS returned to the caller. -/
theorem mask_ratio_unchecked_counterexample :
    ((forward false 2 1 1 1 [[(0:ℚ)], [0]] [0] id id id [0] [[0]] id id id
      wImg [(0:ℚ), 1] 1).1).isSome = true := by
  have hnm : ([(0:ℚ), 1]).length = ([[(0:ℚ)], [0]] : List (List ℚ)).length := rfl
  have hones : ∀ v ∈ (random_masking [[(0:ℚ)], [0]] [(0:ℚ), 1] 1
      ([] : List ℚ)).2.1, v = 1 :=
    fun v hv => random_masking_mask_all_ones _ _ 1 [] (keepCount_at_one _) v hv
  have hmlen : (random_masking [[(0:ℚ)], [0]] [(0:ℚ), 1] 1
      ([] : List ℚ)).2.1.length = 2 * (1 * 1) := by
    rw [random_masking_mask_length _ _ _ _ hnm]
    rfl
  have hden : (Finset.range 1).sum (fun _ =>
      (Finset.range (2 * (1 * 1))).sum (fun t =>
        (random_masking [[(0:ℚ)], [0]] [(0:ℚ), 1] 1
          ([] : List ℚ)).2.1.getD t 0)) ≠ 0 := by
    rw [Finset.sum_range_one, ← hmlen, sum_getD_range,
      sum_eq_length_ones _ hones, hmlen]
    norm_num
  have hmaskenc : (forward_encoder false 2 1 (1 * 1) [[(0:ℚ)], [0]] [0] id id
      [(0:ℚ), 1] 1).2.1 =
      (random_masking [[(0:ℚ)], [0]] [(0:ℚ), 1] 1 ([] : List ℚ)).2.1 := by
    rw [forward_encoder_eq]
    simp only [forward_encoder_masking]
    rw [if_neg Bool.false_ne_true]
  rw [forward_eq]
  simp only [hmaskenc]
  unfold forward_loss
  rw [if_neg hden]
  rfl

/-! ### C9: the end-to-end example -/

/-- Keep count for `L = 8`, `mask_ratio = 3/4`: `int(8 * 0.25) = 2`. -/
theorem keepCount_eight : keepCount 8 (3/4) = 2 := by
  have h1 : ((8:ℕ):ℚ) * (1 - 3/4) = 2 := by push_cast; norm_num
  unfold keepCount sliceLen pyInt
  rw [h1]
  norm_num
  decide

/-- Keep count for `L = 4`, `mask_ratio = 3/4`: `int(4 * 0.25) = 1`, a
single spatial location — not two. -/
theorem keepCount_four : keepCount 4 (3/4) = 1 := by
  have h1 : ((4:ℕ):ℚ) * (1 - 3/4) = 1 := by push_cast; norm_num
  unfold keepCount sliceLen pyInt
  rw [h1]
  norm_num

/-- Every row the decoder emits comes out of the prediction head, so all
rows share its output width. -/
theorem forward_decoder_row_lengths (spatial : Bool) (c D P : ℕ)
    (dec_embed : List ℚ → List ℚ) (mask_token : List ℚ)
    (pos_channel : List (List ℚ)) (dec_blocks : List (List ℚ) → List (List ℚ))
    (dec_norm : List ℚ → List ℚ) (dec_pred : List ℚ → List ℚ)
    (x : List (List ℚ)) (ids_restore : List ℕ)
    (hpred : ∀ v, (dec_pred v).length = P) :
    ∀ row ∈ forward_decoder spatial c D dec_embed mask_token pos_channel
      dec_blocks dec_norm dec_pred x ids_restore, row.length = P := by
  intro row hrow
  unfold forward_decoder at hrow
  have hmem := List.mem_of_mem_drop hrow
  obtain ⟨v, -, rfl⟩ := List.mem_map.1 hmem
  exact hpred v

/-- C9 (amended): for a 1-sample, 2-channel, 4x4 image with patch size 2
(`L = 4` patches per channel, 8 tokens total) and `mask_ratio = 3/4`, the
forward pass keeps exactly 2 of the 8 tokens under the per-channel policy;
under the whole-location policy it keeps exactly `int(4 * 0.25) = 1` of the
4 spatial locations — not 2 — which after the channel split is 2 kept tokens
total; the predictions have shape `(1, 8, 4)` under both policies, and the
loss is a defined non-negative rational under both policies. -/
theorem end_to_end_example (D : ℕ) (imgs : ℕ → ℕ → ℕ → ℕ → ℚ)
    (embed_tokens : List (List ℚ)) (cls_token : List ℚ)
    (enc_blocks : List (List ℚ) → List (List ℚ)) (enc_norm : List ℚ → List ℚ)
    (dec_embed : List ℚ → List ℚ) (mask_token : List ℚ)
    (pos_channel : List (List ℚ)) (dec_blocks : List (List ℚ) → List (List ℚ))
    (dec_norm : List ℚ → List ℚ) (dec_pred : List ℚ → List ℚ)
    (noise_p noise_s : List ℚ)
    (hembed : embed_tokens.length = 8)
    (hnp : noise_p.length = 8) (hns : noise_s.length = 4)
    (hencb : ∀ s, (enc_blocks s).length = s.length)
    (hdecb : ∀ s, (dec_blocks s).length = s.length)
    (hpc : pos_channel.length = 9)
    (hpred : ∀ v, (dec_pred v).length = 4) :
    (forward_encoder_masking false 2 D 4 embed_tokens noise_p (3/4)).1.length
      = 2 ∧
    (random_masking (mergeChannels 2 4 embed_tokens) noise_s (3/4)
      ([] : List ℚ)).1.length = 1 ∧
    (forward_encoder_masking true 2 D 4 embed_tokens noise_s (3/4)).1.length
      = 2 ∧
    ((forward false 2 D 2 2 embed_tokens cls_token enc_blocks enc_norm
        dec_embed mask_token pos_channel dec_blocks dec_norm dec_pred imgs
        noise_p (3/4)).2.1.length = 8 ∧
      ∀ row ∈ (forward false 2 D 2 2 embed_tokens cls_token enc_blocks
        enc_norm dec_embed mask_token pos_channel dec_blocks dec_norm dec_pred
        imgs noise_p (3/4)).2.1, row.length = 4) ∧
    ((forward true 2 D 2 2 embed_tokens cls_token enc_blocks enc_norm
        dec_embed mask_token pos_channel dec_blocks dec_norm dec_pred imgs
        noise_s (3/4)).2.1.length = 8 ∧
      ∀ row ∈ (forward true 2 D 2 2 embed_tokens cls_token enc_blocks enc_norm
        dec_embed mask_token pos_channel dec_blocks dec_norm dec_pred imgs
        noise_s (3/4)).2.1, row.length = 4) ∧
    (∃ q, (forward false 2 D 2 2 embed_tokens cls_token enc_blocks enc_norm
        dec_embed mask_token pos_channel dec_blocks dec_norm dec_pred imgs
        noise_p (3/4)).1 = some q ∧ 0 ≤ q) ∧
    (∃ q, (forward true 2 D 2 2 embed_tokens cls_token enc_blocks enc_norm
        dec_embed mask_token pos_channel dec_blocks dec_norm dec_pred imgs
        noise_s (3/4)).1 = some q ∧ 0 ≤ q) := by
  have hnmp : noise_p.length = embed_tokens.length := by rw [hnp, hembed]
  have hnms : noise_s.length = (mergeChannels 2 4 embed_tokens).length := by
    rw [mergeChannels_length]; exact hns
  have hkp : (random_masking embed_tokens noise_p (3/4)
      ([] : List ℚ)).1.length = 2 := by
    rw [random_masking_kept_length _ _ _ _ hnmp, hembed, keepCount_eight]
  have c2 : (random_masking (mergeChannels 2 4 embed_tokens) noise_s (3/4)
      ([] : List ℚ)).1.length = 1 := by
    rw [random_masking_kept_length _ _ _ _ hnms, mergeChannels_length,
      keepCount_four]
  have hreslp : (random_masking embed_tokens noise_p (3/4)
      ([] : List ℚ)).2.2.length = 8 := by
    rw [random_masking_restore_length _ _ _ _ hnmp, hembed]
  have hresls : (random_masking (mergeChannels 2 4 embed_tokens) noise_s (3/4)
      ([] : List ℚ)).2.2.length = 4 := by
    rw [random_masking_restore_length _ _ _ _ hnms, mergeChannels_length]
  -- mask facts, per-channel policy
  have hmlenp : (random_masking embed_tokens noise_p (3/4)
      ([] : List ℚ)).2.1.length = 8 := by
    rw [random_masking_mask_length _ _ _ _ hnmp, hembed]
  have hcountp : (random_masking embed_tokens noise_p (3/4)
      ([] : List ℚ)).2.1.count 1 = 6 := by
    rw [random_masking_mask_count _ _ _ _ hnmp, hembed, keepCount_eight]
  have hdenp : (Finset.range 1).sum (fun _ =>
      (Finset.range (2 * (2 * 2))).sum (fun t =>
        (random_masking embed_tokens noise_p (3/4)
          ([] : List ℚ)).2.1.getD t 0)) ≠ 0 := by
    rw [Finset.sum_range_one]
    show (Finset.range 8).sum (fun t =>
      (random_masking embed_tokens noise_p (3/4)
        ([] : List ℚ)).2.1.getD t 0) ≠ 0
    rw [← hmlenp, sum_getD_range,
      sum_eq_count_ones _ (random_masking_mask_vals embed_tokens noise_p (3/4) []),
      hcountp]
    norm_num
  -- mask facts, whole-location policy
  have hmlenls : (random_masking (mergeChannels 2 4 embed_tokens) noise_s (3/4)
      ([] : List ℚ)).2.1.length = 4 := by
    rw [random_masking_mask_length _ _ _ _ hnms, mergeChannels_length]
  have hcountls : (random_masking (mergeChannels 2 4 embed_tokens) noise_s (3/4)
      ([] : List ℚ)).2.1.count 1 = 3 := by
    rw [random_masking_mask_count _ _ _ _ hnms, mergeChannels_length,
      keepCount_four]
  have hvalss : ∀ v ∈ (List.replicate 2 (random_masking
      (mergeChannels 2 4 embed_tokens) noise_s (3/4)
        ([] : List ℚ)).2.1).flatten, v = 0 ∨ v = 1 :=
    fun v hv => random_masking_mask_vals _ _ _ _ v (mem_flatten_replicate _ _ _ hv)
  have hmlens : ((List.replicate 2 (random_masking
      (mergeChannels 2 4 embed_tokens) noise_s (3/4)
        ([] : List ℚ)).2.1).flatten).length = 8 := by
    rw [flatten_replicate_length, hmlenls]
  have hdens : (Finset.range 1).sum (fun _ =>
      (Finset.range (2 * (2 * 2))).sum (fun t =>
        ((List.replicate 2 (random_masking (mergeChannels 2 4 embed_tokens)
          noise_s (3/4) ([] : List ℚ)).2.1).flatten).getD t 0)) ≠ 0 := by
    rw [Finset.sum_range_one]
    show (Finset.range 8).sum (fun t =>
      ((List.replicate 2 (random_masking (mergeChannels 2 4 embed_tokens)
        noise_s (3/4) ([] : List ℚ)).2.1).flatten).getD t 0) ≠ 0
    rw [← hmlens, sum_getD_range, sum_eq_count_ones _ hvalss,
      count_flatten_replicate, hcountls]
    norm_num
  -- encoder sequence lengths (for the decoder input)
  have hx_p : 1 ≤ ((enc_blocks (cls_token :: (random_masking embed_tokens
      noise_p (3/4) ([] : List ℚ)).1)).map enc_norm).length := by
    rw [List.length_map, hencb, List.length_cons]
    omega
  have hx_s : 1 ≤ ((enc_blocks (cls_token :: (unmergeChannels 2 D
      (random_masking (mergeChannels 2 4 embed_tokens) noise_s (3/4)
        ([] : List ℚ)).1.length
      (random_masking (mergeChannels 2 4 embed_tokens) noise_s (3/4)
        ([] : List ℚ)).1))).map enc_norm).length := by
    rw [List.length_map, hencb, List.length_cons]
    omega
  refine ⟨?_, c2, ?_, ⟨?_, ?_⟩, ⟨?_, ?_⟩, ?_, ?_⟩
  · show (random_masking embed_tokens noise_p (3/4) ([] : List ℚ)).1.length = 2
    exact hkp
  · show (unmergeChannels 2 D
      (random_masking (mergeChannels 2 4 embed_tokens) noise_s (3/4)
        ([] : List ℚ)).1.length
      (random_masking (mergeChannels 2 4 embed_tokens) noise_s (3/4)
        ([] : List ℚ)).1).length = 2
    rw [unmergeChannels_length, c2]
  · show (forward_decoder false 2 D dec_embed mask_token pos_channel dec_blocks
      dec_norm dec_pred
      ((enc_blocks (cls_token :: (random_masking embed_tokens noise_p (3/4)
        ([] : List ℚ)).1)).map enc_norm)
      (random_masking embed_tokens noise_p (3/4)
        ([] : List ℚ)).2.2).length = 8
    rw [forward_decoder_length_flat 2 D _ _ _ _ _ _ _ _ hdecb hx_p
      (by rw [hreslp]; exact hpc), hreslp]
  · exact forward_decoder_row_lengths false 2 D 4 dec_embed mask_token
      pos_channel dec_blocks dec_norm dec_pred _ _ hpred
  · show (forward_decoder true 2 D dec_embed mask_token pos_channel dec_blocks
      dec_norm dec_pred
      ((enc_blocks (cls_token :: (unmergeChannels 2 D
        (random_masking (mergeChannels 2 4 embed_tokens) noise_s (3/4)
          ([] : List ℚ)).1.length
        (random_masking (mergeChannels 2 4 embed_tokens) noise_s (3/4)
          ([] : List ℚ)).1))).map enc_norm)
      (random_masking (mergeChannels 2 4 embed_tokens) noise_s (3/4)
        ([] : List ℚ)).2.2).length = 8
    rw [forward_decoder_length_spatial 2 D _ _ _ _ _ _ _ _ hdecb hx_s
      (by rw [hresls]; exact hpc), hresls]
  · exact forward_decoder_row_lengths true 2 D 4 dec_embed mask_token
      pos_channel dec_blocks dec_norm dec_pred _ _ hpred
  · exact forward_loss_some_nonneg 2 2 2 1 imgs _ _
      (fun n t => getD_nonneg_of_vals _
        (random_masking_mask_vals embed_tokens noise_p (3/4) []) t)
      hdenp
  · exact forward_loss_some_nonneg 2 2 2 1 imgs _ _
      (fun n t => getD_nonneg_of_vals _ hvalss t)
      hdens

/-- Counterexample to C9 as stated: in the end-to-end configuration under the
whole-location policy (4 spatial locations, `mask_ratio = 3/4`), the masking
keeps exactly `int(4 * 0.25) = 1` spatial location — not the 2 the claim
asserts. -/
theorem end_to_end_counterexample :
    (random_masking (mergeChannels 2 4 wTok) wNoiseS (3/4)
        ([] : List ℚ)).1.length = 1 ∧
    ¬ ((random_masking (mergeChannels 2 4 wTok) wNoiseS (3/4)
        ([] : List ℚ)).1.length = 2) := by
  have h : (random_masking (mergeChannels 2 4 wTok) wNoiseS (3/4)
      ([] : List ℚ)).1.length = 1 := by
    rw [random_masking_kept_length _ _ _ _ (by rw [mergeChannels_length]; rfl),
      mergeChannels_length, keepCount_four]
  refine ⟨h, ?_⟩
  rw [h]
  decide

/-- Witness for `end_to_end_example` at a fully concrete input. -/
theorem end_to_end_example_witness :
    (wTok.length = 8 ∧ wNoiseP.length = 8 ∧ wNoiseS.length = 4 ∧
      (∀ s : List (List ℚ), (id s).length = s.length) ∧ wPos.length = 9 ∧
      (∀ v, (wPred v).length = 4)) ∧
    ((forward_encoder_masking false 2 1 4 wTok wNoiseP (3/4)).1.length = 2 ∧
     (random_masking (mergeChannels 2 4 wTok) wNoiseS (3/4)
       ([] : List ℚ)).1.length = 1 ∧
     (forward_encoder_masking true 2 1 4 wTok wNoiseS (3/4)).1.length = 2 ∧
     ((forward false 2 1 2 2 wTok [0] id id id [0] wPos id id wPred wImg
         wNoiseP (3/4)).2.1.length = 8 ∧
       ∀ row ∈ (forward false 2 1 2 2 wTok [0] id id id [0] wPos id id wPred
         wImg wNoiseP (3/4)).2.1, row.length = 4) ∧
     ((forward true 2 1 2 2 wTok [0] id id id [0] wPos id id wPred wImg
         wNoiseS (3/4)).2.1.length = 8 ∧
       ∀ row ∈ (forward true 2 1 2 2 wTok [0] id id id [0] wPos id id wPred
         wImg wNoiseS (3/4)).2.1, row.length = 4) ∧
     (∃ q, (forward false 2 1 2 2 wTok [0] id id id [0] wPos id id wPred wImg
         wNoiseP (3/4)).1 = some q ∧ 0 ≤ q) ∧
     (∃ q, (forward true 2 1 2 2 wTok [0] id id id [0] wPos id id wPred wImg
         wNoiseS (3/4)).1 = some q ∧ 0 ≤ q)) :=
  ⟨⟨rfl, rfl, rfl, fun _ => rfl, rfl, fun _ => rfl⟩,
    end_to_end_example 1 wImg wTok [0] id id id [0] wPos id id wPred wNoiseP
      wNoiseS rfl rfl rfl (fun _ => rfl) (fun _ => rfl) rfl (fun _ => rfl)⟩
